import Mathlib

/-
  Shallow embedding of the T1mof/load-balancer repository.

  Token-bucket rate limiter: src/pkg/ratelimiter/ratelimiter.go
  Control API handlers:      src/pkg/ratelimiter (client handlers file)
  Settings storage:          src/pkg/storage/storage.go (interface), memory
                             and postgres implementations
  Balancer pool/dispatch:    internal/balancer (balancer and algorithms files)

  Go float64 time arithmetic is modelled over the rationals; Go int over
  the integers.  Go's conversion int(x) truncates toward zero.
-/

namespace LoadBalancer

/-- Go's conversion `int(x)` on a real quantity: truncation toward zero. -/
def goInt (q : ℚ) : ℤ := if 0 ≤ q then ⌊q⌋ else ⌈q⌉

/-- TokenBucket from src/pkg/ratelimiter/ratelimiter.go: capacity, tokens
(both Go int), refillRate (tokens per second, Go float64), lastRefill and
lastAccess timestamps (seconds). -/
structure TokenBucket where
  capacity : ℤ
  tokens : ℤ
  refillRate : ℚ
  lastRefill : ℚ
  lastAccess : ℚ
deriving Repr, DecidableEq

/-- A freshly created bucket: tokens = capacity, both timestamps = now.
This is the bucket literal built in createBucketInMemory, getBucket and
the not-exists branch of SetClientLimit. -/
def mkBucket (capacity : ℤ) (refillRate : ℚ) (now : ℚ) : TokenBucket :=
  { capacity := capacity
    tokens := capacity
    refillRate := refillRate
    lastRefill := now
    lastAccess := now }

/-- refillBucket from ratelimiter.go: newTokens = int(elapsed*refillRate);
when positive, add and clamp to capacity, and bump lastRefill to now;
otherwise leave the bucket untouched. -/
def refillBucket (now : ℚ) (b : TokenBucket) : TokenBucket :=
  let elapsed := now - b.lastRefill
  let newTokens := goInt (elapsed * b.refillRate)
  if 0 < newTokens then
    { b with
      tokens := min (b.tokens + newTokens) b.capacity
      lastRefill := now }
  else b

/-- Allow from ratelimiter.go, for one bucket: refill, update lastAccess,
then consume one token when tokens > 0.  Returns the verdict and the
bucket after the call. -/
def allow (now : ℚ) (b : TokenBucket) : Bool × TokenBucket :=
  let r := refillBucket now b
  let r2 := { r with lastAccess := now }
  if 0 < r2.tokens then
    (true, { r2 with tokens := r2.tokens - 1 })
  else
    (false, r2)

/-- The exists-branch of SetClientLimit applied to one bucket: overwrite
capacity and refillRate, clamp tokens down to the new capacity when it
exceeds it; lastRefill and lastAccess are not touched. -/
def setLimitBucket (capacity : ℤ) (refillRate : ℚ) (b : TokenBucket) : TokenBucket :=
  { b with
    capacity := capacity
    refillRate := refillRate
    tokens := if capacity < b.tokens then capacity else b.tokens }

/-- The operations that mutate one bucket after its creation: a data-plane
admission (Allow), a background refill tick (refillTokens calls
refillBucket), and a limit update (SetClientLimit on an existing bucket). -/
inductive BucketOp where
  | request (now : ℚ)
  | tick (now : ℚ)
  | setLimit (capacity : ℤ) (refillRate : ℚ)
deriving Repr, DecidableEq

/-- Apply one operation to a bucket. -/
def applyOp (b : TokenBucket) : BucketOp → TokenBucket
  | .request now => (allow now b).2
  | .tick now => refillBucket now b
  | .setLimit c r => setLimitBucket c r b

/-- An operation is called with positive capacity when it is a setLimit
with positive capacity; request and tick carry no capacity argument. -/
def opCapPos : BucketOp → Prop
  | .setLimit c _ => 0 < c
  | _ => True

instance : DecidablePred opCapPos := by
  intro op; cases op <;> simp [opCapPos] <;> infer_instance

/-- The bucket invariant of the data model: 0 ≤ tokens ≤ capacity. -/
def BucketInv (b : TokenBucket) : Prop := 0 ≤ b.tokens ∧ b.tokens ≤ b.capacity

instance : DecidablePred BucketInv := by
  intro b; unfold BucketInv; infer_instance

/-- Number of successful admissions when a list of request/tick operations
runs against a bucket in order. -/
def succCount (b : TokenBucket) : List BucketOp → ℕ
  | [] => 0
  | op :: rest =>
    (match op with
     | .request t => if (allow t b).1 then 1 else 0
     | _ => 0) + succCount (applyOp b op) rest

/-- An operation lies in the admission window ending at tE when it is an
Allow call or a background refill tick stamped at most tE. -/
def opInWindow (tE : ℚ) : BucketOp → Prop
  | .request t => t ≤ tE
  | .tick t => t ≤ tE
  | .setLimit _ _ => False

instance (tE : ℚ) : DecidablePred (opInWindow tE) := by
  intro op; cases op <;> simp [opInWindow] <;> infer_instance

/-- The verdicts of a sequence of Allow calls at the given times. -/
def admitResults (b : TokenBucket) : List ℚ → List Bool
  | [] => []
  | t :: ts => (allow t b).1 :: admitResults (allow t b).2 ts

/-- Server from internal/balancer: the mutable per-backend fields, the
Healthy flag and the ActiveConnections counter.  The URL and reverse
proxy identify the backend; here a backend is identified by its index in
the pool list. -/
structure Server where
  healthy : Bool
  active : ℤ
deriving Repr, DecidableEq

instance : Inhabited Server := ⟨⟨false, 0⟩⟩

/-- The loop body of RoundRobin.NextServer.  The fuel argument is the Go
loop bound i < len(servers); cur is rr.current.  Go's % on ints is
truncating (Int.tmod).  A result (some i, cur) means the Go code returned
servers[i] leaving rr.current = cur; (none, cur) means it returned nil. -/
def rrLoop (servers : List Server) (initialIdx : ℤ) : ℤ → ℕ → Option ℕ × ℤ
  | cur, 0 => (none, cur)
  | cur, fuel + 1 =>
    let cur2 := (cur + 1).tmod servers.length
    if (servers.getD cur2.toNat default).healthy then (some cur2.toNat, cur2)
    else if cur2 = initialIdx then (none, cur2)
    else rrLoop servers initialIdx cur2 fuel

/-- RoundRobin.NextServer: nil on the empty pool, otherwise run the scan
for at most len(servers) steps starting from the current cursor. -/
def rrNextServer (servers : List Server) (cur : ℤ) : Option ℕ × ℤ :=
  if servers.length = 0 then (none, cur)
  else rrLoop servers cur cur servers.length

/-- The first-pick results of n consecutive RoundRobin.NextServer calls,
threading the cursor. -/
def rrPicks (servers : List Server) : ℤ → ℕ → List (Option ℕ)
  | _, 0 => []
  | cur, k + 1 =>
    let (r, cur2) := rrNextServer servers cur
    r :: rrPicks servers cur2 k

/-- The loop of LeastConnections.NextServer: scan left to right carrying
the best (index, activeCount) seen so far; a healthy server strictly
below the current best replaces it (Go: minServer == nil or
connections < minConnections). -/
def lcLoop : List Server → ℕ → Option (ℕ × ℤ) → Option (ℕ × ℤ)
  | [], _, best => best
  | s :: rest, i, best =>
    if s.healthy then
      match best with
      | none => lcLoop rest (i + 1) (some (i, s.active))
      | some (bi, bc) =>
        if s.active < bc then lcLoop rest (i + 1) (some (i, s.active))
        else lcLoop rest (i + 1) (some (bi, bc))
    else lcLoop rest (i + 1) best

/-- LeastConnections.NextServer: index of the returned backend. -/
def lcNextServer (servers : List Server) : Option ℕ :=
  if servers.length = 0 then none
  else (lcLoop servers 0 none).map Prod.fst

/-- Add d to the active-connection count of the server at index i. -/
def bumpActive : List Server → ℕ → ℤ → List Server
  | [], _, _ => []
  | s :: rest, 0, d => { s with active := s.active + d } :: rest
  | s :: rest, i + 1, d => s :: bumpActive rest i d

/-- Outcome of LoadBalancer.ServeHTTP: 503 when no server was picked,
otherwise the request was forwarded (ok = false when the reverse proxy
reported a forwarding error, answered 502 by the proxy error handler). -/
inductive DispatchResult where
  | unavailable
  | forwarded (ok : Bool)
deriving Repr, DecidableEq

/-- LoadBalancer.ServeHTTP for one request: given the picked index (none
models getNextServer returning nil), increment the chosen server's active
count, forward (the forward function observes the pool mid-request and
reports success or failure), then decrement. -/
def serveHTTP (servers : List Server) (picked : Option ℕ)
    (forward : List Server → ℕ → Bool) : List Server × DispatchResult :=
  match picked with
  | none => (servers, .unavailable)
  | some i =>
    let s1 := bumpActive servers i 1
    let ok := forward s1 i
    let s2 := bumpActive s1 i (-1)
    (s2, .forwarded ok)

/-- The indices visited by a round-robin scan of f steps from cursor cur
over a pool of n servers: (cur+1) mod n, (cur+2) mod n, ... -/
def scanPositions (n : ℕ) (cur : ℤ) (f : ℕ) : List ℕ :=
  (List.range f).map (fun (k : ℕ) => ((cur + 1 + (k : ℤ)).tmod n).toNat)

/-- The first healthy index met by a full round-robin rotation from cur. -/
def firstHealthy (servers : List Server) (cur : ℤ) : Option ℕ :=
  (scanPositions servers.length cur servers.length).find?
    (fun i => (servers.getD i default).healthy)

/-- First-occurrence argmin of active count among the healthy servers of
a list: the (index, activeCount) pair, earlier index winning ties. -/
def lcFind : List Server → Option (ℕ × ℤ)
  | [] => none
  | s :: rest =>
    let r := lcFind rest
    if s.healthy then
      match r with
      | none => some (0, s.active)
      | some (k, a) =>
        if s.active ≤ a then some (0, s.active) else some (k + 1, a)
    else r.map (fun p => (p.1 + 1, p.2))

/-- ClientLimit record of src/pkg/storage/storage.go. -/
structure ClientLimit where
  capacity : ℤ
  refillRate : ℚ
deriving Repr, DecidableEq

/-- The Storage interface of src/pkg/storage/storage.go: the persisted
client-limit table plus the possibility of I/O failure on each mutating
operation.  MemoryStorage never fails (both flags false); a SQL store can
fail on any call, which the flags model. -/
structure Store where
  limits : String → Option ClientLimit
  failSave : Bool
  failDelete : Bool

/-- SaveClientLimit: upsert, or report failure. -/
def storeSave (st : Store) (c : String) (cap : ℤ) (rate : ℚ) : Store × Bool :=
  if st.failSave then (st, false)
  else ({ st with limits := fun k => if k = c then some ⟨cap, rate⟩ else st.limits k }, true)

/-- Storage DeleteClientLimit: remove the record, or report failure. -/
def storeDelete (st : Store) (c : String) : Store × Bool :=
  if st.failDelete then (st, false)
  else ({ st with limits := fun k => if k = c then none else st.limits k }, true)

/-- RateLimiter from ratelimiter.go: the bucket table, the defaults, and
the optional settings store (Go: rl.storage may be nil). -/
structure RateLimiter where
  buckets : String → Option TokenBucket
  defaultCap : ℤ
  defaultRate : ℚ
  store : Option Store

/-- SetClientLimit from ratelimiter.go: update the existing bucket
(overwrite capacity and refillRate, clamp tokens) or install a fresh full
bucket, then save to the store when one is configured; a save failure is
only logged, the runtime change is kept. -/
def setClientLimit (rl : RateLimiter) (now : ℚ) (c : String) (cap : ℤ) (rate : ℚ) :
    RateLimiter :=
  let newB : TokenBucket :=
    match rl.buckets c with
    | some b => setLimitBucket cap rate b
    | none => mkBucket cap rate now
  let buckets2 := fun k => if k = c then some newB else rl.buckets k
  match rl.store with
  | none => { rl with buckets := buckets2 }
  | some st => { rl with buckets := buckets2, store := some (storeSave st c cap rate).1 }

/-- DeleteClientLimit from ratelimiter.go: remove the bucket from the
table, then delete from the store; a store failure is returned as an
error (Bool false) after the bucket was already removed. -/
def deleteClientLimit (rl : RateLimiter) (c : String) : RateLimiter × Bool :=
  let buckets2 := fun k => if k = c then none else rl.buckets k
  match rl.store with
  | none => ({ rl with buckets := buckets2 }, true)
  | some st =>
    let p := storeDelete st c
    ({ rl with buckets := buckets2, store := some p.1 }, p.2)

/-- GetClientLimit from ratelimiter.go: read the runtime bucket table
only; report the defaults and false when no bucket is present. -/
def getClientLimit (rl : RateLimiter) (c : String) : ℤ × ℚ × Bool :=
  match rl.buckets c with
  | none => (rl.defaultCap, rl.defaultRate, false)
  | some b => (b.capacity, b.refillRate, true)

/-- DeleteClientHandler of the Control API: 404 when GetClientLimit says
the client is unknown, 500 when DeleteClientLimit fails, else 200. -/
def deleteClientHandler (rl : RateLimiter) (c : String) : RateLimiter × ℕ :=
  if (getClientLimit rl c).2.2 = false then (rl, 404)
  else
    let p := deleteClientLimit rl c
    if p.2 then (p.1, 200) else (p.1, 500)

/-- CreateClientHandler of the Control API: 400 on an undecodable body or
a missing client_id query parameter, otherwise SetClientLimit and 201.
The body carries capacity and refill_rate; no validation beyond JSON
decoding is performed. -/
def createClientHandler (rl : RateLimiter) (now : ℚ) (body : Option (ℤ × ℚ))
    (clientID : String) : RateLimiter × ℕ :=
  match body with
  | none => (rl, 400)
  | some (cap, rate) =>
    if clientID = "" then (rl, 400)
    else (setClientLimit rl now clientID cap rate, 201)

/-! Helper lemmas -/

theorem goInt_of_nonneg {q : ℚ} (h : 0 ≤ q) : goInt q = ⌊q⌋ := by
  simp [goInt, h]

theorem goInt_pos {q : ℚ} (h : 0 < goInt q) : goInt q = ⌊q⌋ ∧ 0 < q := by
  by_cases hq : 0 ≤ q
  · refine ⟨goInt_of_nonneg hq, ?_⟩
    rcases lt_or_eq_of_le hq with h2 | h2
    · exact h2
    · rw [goInt_of_nonneg hq, ← h2] at h
      simp at h
  · exfalso
    push_neg at hq
    have hc : goInt q = ⌈q⌉ := by simp [goInt, not_le.mpr hq]
    have hle : ⌈q⌉ ≤ 0 := Int.ceil_le.mpr (by exact_mod_cast le_of_lt hq)
    omega

theorem refillBucket_eq (now : ℚ) (b : TokenBucket) :
    refillBucket now b =
      if 0 < goInt ((now - b.lastRefill) * b.refillRate) then
        { b with
          tokens := min (b.tokens + goInt ((now - b.lastRefill) * b.refillRate)) b.capacity
          lastRefill := now }
      else b := rfl

theorem refillBucket_capacity (now : ℚ) (b : TokenBucket) :
    (refillBucket now b).capacity = b.capacity := by
  rw [refillBucket_eq]; split <;> rfl

theorem refillBucket_refillRate (now : ℚ) (b : TokenBucket) :
    (refillBucket now b).refillRate = b.refillRate := by
  rw [refillBucket_eq]; split <;> rfl

theorem allow_eq (now : ℚ) (b : TokenBucket) :
    allow now b =
      if 0 < (refillBucket now b).tokens then
        (true, { refillBucket now b with
                 lastAccess := now, tokens := (refillBucket now b).tokens - 1 })
      else (false, { refillBucket now b with lastAccess := now }) := rfl

theorem allow_snd_capacity (now : ℚ) (b : TokenBucket) :
    (allow now b).2.capacity = b.capacity := by
  rw [allow_eq]; split <;> simp [refillBucket_capacity]

theorem allow_snd_refillRate (now : ℚ) (b : TokenBucket) :
    (allow now b).2.refillRate = b.refillRate := by
  rw [allow_eq]; split <;> simp [refillBucket_refillRate]

theorem allow_snd_lastRefill (now : ℚ) (b : TokenBucket) :
    (allow now b).2.lastRefill = (refillBucket now b).lastRefill := by
  rw [allow_eq]; split <;> rfl

/-! C1 -/

/-- C1: each Admit call first refills: with elapsed seconds d since
lastRefill, added = floor of d * refillRate; when added > 0 the tokens
become min (tokens + added) capacity and lastRefill becomes now, when
added = 0 both are unchanged; then Admit returns true and decrements the
refilled tokens by exactly one precisely when they are positive, and
returns false leaving them unchanged otherwise. -/
theorem c1_admit_refill_decrement (b : TokenBucket) (now : ℚ)
    (h1 : b.lastRefill ≤ now) (h2 : 0 ≤ b.refillRate) :
    (0 < ⌊(now - b.lastRefill) * b.refillRate⌋ →
      (refillBucket now b).tokens
          = min (b.tokens + ⌊(now - b.lastRefill) * b.refillRate⌋) b.capacity ∧
      (refillBucket now b).lastRefill = now) ∧
    (⌊(now - b.lastRefill) * b.refillRate⌋ = 0 →
      (refillBucket now b).tokens = b.tokens ∧
      (refillBucket now b).lastRefill = b.lastRefill) ∧
    (0 < (refillBucket now b).tokens →
      allow now b = (true, { refillBucket now b with
                             lastAccess := now
                             tokens := (refillBucket now b).tokens - 1 })) ∧
    ((refillBucket now b).tokens ≤ 0 →
      allow now b = (false, { refillBucket now b with lastAccess := now })) := by
  have hprod : 0 ≤ (now - b.lastRefill) * b.refillRate :=
    mul_nonneg (by linarith) h2
  have hgo : goInt ((now - b.lastRefill) * b.refillRate)
      = ⌊(now - b.lastRefill) * b.refillRate⌋ := goInt_of_nonneg hprod
  refine ⟨?_, ?_, ?_, ?_⟩
  · intro hpos
    rw [refillBucket_eq, hgo]
    simp [hpos]
  · intro hzero
    rw [refillBucket_eq, hgo, hzero]
    simp
  · intro hpos
    rw [allow_eq]
    simp [hpos]
  · intro hnp
    rw [allow_eq]
    have : ¬ 0 < (refillBucket now b).tokens := by omega
    simp [this]

/-- Witness for C1 at a concrete bucket: capacity 10, tokens 3, rate 2,
lastRefill 0, queried at time 1 (added = 2). -/
theorem c1_admit_refill_decrement_witness :
    ((⟨10, 3, 2, 0, 0⟩ : TokenBucket).lastRefill ≤ (1 : ℚ) ∧
      (0 : ℚ) ≤ (⟨10, 3, 2, 0, 0⟩ : TokenBucket).refillRate) ∧
    ((0 < ⌊((1 : ℚ) - (⟨10, 3, 2, 0, 0⟩ : TokenBucket).lastRefill)
            * (⟨10, 3, 2, 0, 0⟩ : TokenBucket).refillRate⌋ →
      (refillBucket 1 ⟨10, 3, 2, 0, 0⟩).tokens
          = min ((⟨10, 3, 2, 0, 0⟩ : TokenBucket).tokens
              + ⌊((1 : ℚ) - (⟨10, 3, 2, 0, 0⟩ : TokenBucket).lastRefill)
                  * (⟨10, 3, 2, 0, 0⟩ : TokenBucket).refillRate⌋)
              (⟨10, 3, 2, 0, 0⟩ : TokenBucket).capacity ∧
      (refillBucket 1 ⟨10, 3, 2, 0, 0⟩).lastRefill = 1) ∧
    (⌊((1 : ℚ) - (⟨10, 3, 2, 0, 0⟩ : TokenBucket).lastRefill)
        * (⟨10, 3, 2, 0, 0⟩ : TokenBucket).refillRate⌋ = 0 →
      (refillBucket 1 ⟨10, 3, 2, 0, 0⟩).tokens
          = (⟨10, 3, 2, 0, 0⟩ : TokenBucket).tokens ∧
      (refillBucket 1 ⟨10, 3, 2, 0, 0⟩).lastRefill
          = (⟨10, 3, 2, 0, 0⟩ : TokenBucket).lastRefill) ∧
    (0 < (refillBucket 1 ⟨10, 3, 2, 0, 0⟩).tokens →
      allow 1 ⟨10, 3, 2, 0, 0⟩
        = (true, { refillBucket 1 ⟨10, 3, 2, 0, 0⟩ with
                   lastAccess := 1
                   tokens := (refillBucket 1 ⟨10, 3, 2, 0, 0⟩).tokens - 1 })) ∧
    ((refillBucket 1 ⟨10, 3, 2, 0, 0⟩).tokens ≤ 0 →
      allow 1 ⟨10, 3, 2, 0, 0⟩
        = (false, { refillBucket 1 ⟨10, 3, 2, 0, 0⟩ with lastAccess := 1 }))) :=
  ⟨by decide, c1_admit_refill_decrement ⟨10, 3, 2, 0, 0⟩ 1 (by decide) (by decide)⟩

/-! C2 -/

theorem refillBucket_inv {b : TokenBucket} (now : ℚ) (h : BucketInv b) :
    BucketInv (refillBucket now b) := by
  obtain ⟨h0, h1⟩ := h
  rw [refillBucket_eq]
  split
  · rename_i hpos
    refine ⟨?_, ?_⟩ <;> simp only [] <;> omega
  · exact ⟨h0, h1⟩

theorem allow_inv {b : TokenBucket} (now : ℚ) (h : BucketInv b) :
    BucketInv (allow now b).2 := by
  have hr := refillBucket_inv now h
  obtain ⟨h0, h1⟩ := hr
  rw [allow_eq]
  split
  · rename_i hpos
    refine ⟨?_, ?_⟩ <;> simp only [] <;> omega
  · exact ⟨h0, h1⟩

theorem setLimitBucket_inv {b : TokenBucket} {c : ℤ} (r : ℚ)
    (hc : 0 < c) (h : BucketInv b) : BucketInv (setLimitBucket c r b) := by
  obtain ⟨h0, h1⟩ := h
  unfold setLimitBucket BucketInv
  refine ⟨?_, ?_⟩ <;> simp only [] <;> split <;> omega

theorem applyOp_inv {b : TokenBucket} {op : BucketOp} (hop : opCapPos op)
    (h : BucketInv b) : BucketInv (applyOp b op) := by
  cases op with
  | request now => exact allow_inv now h
  | tick now => exact refillBucket_inv now h
  | setLimit c r => exact setLimitBucket_inv r hop h

theorem foldl_applyOp_inv {b : TokenBucket} (ops : List BucketOp)
    (hops : ∀ op ∈ ops, opCapPos op) (h : BucketInv b) :
    BucketInv (ops.foldl applyOp b) := by
  induction ops generalizing b with
  | nil => exact h
  | cons op rest ih =>
    exact ih (fun o ho => hops o (List.mem_cons_of_mem _ ho))
      (applyOp_inv (hops op (List.mem_cons_self _ _)) h)

/-- C2: a bucket created with positive capacity and mutated only by
admissions, refill ticks and SetLimit calls with positive capacity
satisfies 0 ≤ tokens ≤ capacity after every operation. -/
theorem c2_bucket_invariant (cap : ℤ) (rate t0 : ℚ) (hcap : 0 < cap)
    (ops : List BucketOp) (hops : ∀ op ∈ ops, opCapPos op) :
    BucketInv (ops.foldl applyOp (mkBucket cap rate t0)) :=
  foldl_applyOp_inv ops hops ⟨le_of_lt hcap, le_refl _⟩

/-- Witness for C2: capacity 2, rate 1, two admissions, a tick and a
limit update with positive capacity. -/
theorem c2_bucket_invariant_witness :
    ((0 : ℤ) < 2 ∧ ∀ op ∈ [BucketOp.request 0, BucketOp.request 1,
        BucketOp.tick 3, BucketOp.setLimit 1 2], opCapPos op) ∧
    BucketInv ([BucketOp.request 0, BucketOp.request 1,
        BucketOp.tick 3, BucketOp.setLimit 1 2].foldl applyOp (mkBucket 2 1 0)) :=
  ⟨⟨by decide, by decide⟩,
    c2_bucket_invariant 2 1 0 (by decide) _ (by decide)⟩

/-! C3 -/

theorem floor_add_le (a c : ℚ) : ⌊a⌋ + ⌊c⌋ ≤ ⌊a + c⌋ :=
  Int.le_floor.mpr (by push_cast; exact add_le_add (Int.floor_le a) (Int.floor_le c))

theorem refill_lastRefill_le {b : TokenBucket} {t tE : ℚ}
    (hb : b.lastRefill ≤ tE) (ht : t ≤ tE) :
    (refillBucket t b).lastRefill ≤ tE := by
  rw [refillBucket_eq]
  split
  · exact ht
  · exact hb

theorem refill_tokens_nonneg {b : TokenBucket} (t : ℚ)
    (h0 : 0 ≤ b.tokens) (hc : 0 ≤ b.capacity) :
    0 ≤ (refillBucket t b).tokens := by
  rw [refillBucket_eq]
  split
  · rename_i hpos
    show 0 ≤ min (b.tokens + goInt ((t - b.lastRefill) * b.refillRate)) b.capacity
    omega
  · exact h0

theorem allow_tokens_nonneg {b : TokenBucket} (t : ℚ)
    (h0 : 0 ≤ b.tokens) (hc : 0 ≤ b.capacity) :
    0 ≤ (allow t b).2.tokens := by
  have hr := refill_tokens_nonneg t h0 hc
  rw [allow_eq]
  split
  · rename_i hpos
    show 0 ≤ (refillBucket t b).tokens - 1
    omega
  · exact hr

theorem refill_potential (t tE : ℚ) (b : TokenBucket)
    (hb : b.lastRefill ≤ tE) (ht : t ≤ tE) (hr : 0 ≤ b.refillRate) :
    (refillBucket t b).tokens
        + ⌊(tE - (refillBucket t b).lastRefill) * b.refillRate⌋
      ≤ b.tokens + ⌊(tE - b.lastRefill) * b.refillRate⌋ := by
  rw [refillBucket_eq]
  split
  · rename_i hpos
    obtain ⟨hgo, hq⟩ := goInt_pos hpos
    show min (b.tokens + goInt ((t - b.lastRefill) * b.refillRate)) b.capacity
        + ⌊(tE - t) * b.refillRate⌋
      ≤ b.tokens + ⌊(tE - b.lastRefill) * b.refillRate⌋
    have h1 : min (b.tokens + goInt ((t - b.lastRefill) * b.refillRate)) b.capacity
        ≤ b.tokens + ⌊(t - b.lastRefill) * b.refillRate⌋ := by
      rw [← hgo]; exact min_le_left _ _
    have h2 : ⌊(t - b.lastRefill) * b.refillRate⌋ + ⌊(tE - t) * b.refillRate⌋
        ≤ ⌊(tE - b.lastRefill) * b.refillRate⌋ := by
      have h3 := floor_add_le ((t - b.lastRefill) * b.refillRate)
        ((tE - t) * b.refillRate)
      have he : (t - b.lastRefill) * b.refillRate + (tE - t) * b.refillRate
          = (tE - b.lastRefill) * b.refillRate := by ring
      rw [he] at h3
      exact h3
    omega
  · exact le_refl _

theorem allow_potential (t tE : ℚ) (b : TokenBucket)
    (hb : b.lastRefill ≤ tE) (ht : t ≤ tE) (hr : 0 ≤ b.refillRate) :
    ((if (allow t b).1 then 1 else 0) : ℤ) + (allow t b).2.tokens
        + ⌊(tE - (allow t b).2.lastRefill) * b.refillRate⌋
      ≤ b.tokens + ⌊(tE - b.lastRefill) * b.refillRate⌋ := by
  have hrp := refill_potential t tE b hb ht hr
  rw [allow_eq]
  split
  · rename_i hpos
    show (1 : ℤ) + ((refillBucket t b).tokens - 1)
        + ⌊(tE - (refillBucket t b).lastRefill) * b.refillRate⌋
      ≤ b.tokens + ⌊(tE - b.lastRefill) * b.refillRate⌋
    omega
  · show (0 : ℤ) + (refillBucket t b).tokens
        + ⌊(tE - (refillBucket t b).lastRefill) * b.refillRate⌋
      ≤ b.tokens + ⌊(tE - b.lastRefill) * b.refillRate⌋
    omega

theorem succCount_le (ops : List BucketOp) : ∀ (b : TokenBucket) (tE : ℚ),
    0 ≤ b.capacity → 0 ≤ b.tokens → 0 ≤ b.refillRate → b.lastRefill ≤ tE →
    (∀ op ∈ ops, opInWindow tE op) →
    (succCount b ops : ℤ) ≤ b.tokens + ⌊(tE - b.lastRefill) * b.refillRate⌋ := by
  induction ops with
  | nil =>
    intro b tE hc h0 hr hl _
    have hf : 0 ≤ ⌊(tE - b.lastRefill) * b.refillRate⌋ :=
      Int.floor_nonneg.mpr (mul_nonneg (by linarith) hr)
    simp only [succCount, Nat.cast_zero]
    omega
  | cons op rest ih =>
    intro b tE hc h0 hr hl hops
    have hopw := hops op (List.mem_cons_self _ _)
    have hrest : ∀ o ∈ rest, opInWindow tE o :=
      fun o ho => hops o (List.mem_cons_of_mem _ ho)
    cases op with
    | request t =>
      have ht : t ≤ tE := hopw
      have hca : (allow t b).2.capacity = b.capacity := allow_snd_capacity t b
      have hra : (allow t b).2.refillRate = b.refillRate := allow_snd_refillRate t b
      have hla : (allow t b).2.lastRefill ≤ tE := by
        rw [allow_snd_lastRefill]; exact refill_lastRefill_le hl ht
      have hta : 0 ≤ (allow t b).2.tokens := allow_tokens_nonneg t h0 hc
      have hIH := ih (allow t b).2 tE (by rw [hca]; exact hc) hta
        (by rw [hra]; exact hr) hla hrest
      rw [hra] at hIH
      have hpot := allow_potential t tE b hl ht hr
      have hsc : succCount b (BucketOp.request t :: rest)
          = (if (allow t b).1 then 1 else 0) + succCount (allow t b).2 rest := rfl
      rw [hsc]
      push_cast
      split at hpot <;> split <;> simp_all <;> omega
    | tick t =>
      have ht : t ≤ tE := hopw
      have hca : (refillBucket t b).capacity = b.capacity := refillBucket_capacity t b
      have hra : (refillBucket t b).refillRate = b.refillRate := refillBucket_refillRate t b
      have hla : (refillBucket t b).lastRefill ≤ tE := refill_lastRefill_le hl ht
      have hta : 0 ≤ (refillBucket t b).tokens := refill_tokens_nonneg t h0 hc
      have hIH := ih (refillBucket t b) tE (by rw [hca]; exact hc) hta
        (by rw [hra]; exact hr) hla hrest
      rw [hra] at hIH
      have hpot := refill_potential t tE b hl ht hr
      have hsc : succCount b (BucketOp.tick t :: rest)
          = 0 + succCount (refillBucket t b) rest := rfl
      rw [hsc]
      push_cast
      omega
    | setLimit cc rr => exact hopw.elim

/-- C3: a bucket with capacity C and rate R that starts full at the
window start grants at most C + floor (T * R) admissions over any
sequence of Allow calls and refill ticks whose timestamps stay within
the window of T seconds. -/
theorem c3_window_admission_bound (C : ℤ) (R t0 T : ℚ) (hC : 0 ≤ C)
    (hR : 0 ≤ R) (hT : 0 ≤ T) (ops : List BucketOp)
    (hops : ∀ op ∈ ops, opInWindow (t0 + T) op) :
    (succCount (mkBucket C R t0) ops : ℤ) ≤ C + ⌊T * R⌋ := by
  have h := succCount_le ops (mkBucket C R t0) (t0 + T) hC hC hR
    (by show t0 ≤ t0 + T; linarith) hops
  have he : t0 + T - (mkBucket C R t0).lastRefill = T := by
    show t0 + T - t0 = T; ring
  rw [he] at h
  exact h

/-- Witness for C3: capacity 2, rate 1, window start 0, length 3; five
Allow calls and one tick inside the window grant at most 5 = 2 + 3. -/
theorem c3_window_admission_bound_witness :
    ((0 : ℤ) ≤ 2 ∧ (0 : ℚ) ≤ 1 ∧ (0 : ℚ) ≤ 3 ∧
      ∀ op ∈ [BucketOp.request 0, BucketOp.request 0, BucketOp.tick 1,
        BucketOp.request 1, BucketOp.request 2, BucketOp.request 3],
        opInWindow ((0 : ℚ) + 3) op) ∧
    (succCount (mkBucket 2 1 0) [BucketOp.request 0, BucketOp.request 0,
        BucketOp.tick 1, BucketOp.request 1, BucketOp.request 2,
        BucketOp.request 3] : ℤ) ≤ 2 + ⌊(3 : ℚ) * 1⌋ :=
  ⟨⟨by decide, by decide, by decide, by simp [opInWindow] <;> decide⟩,
    c3_window_admission_bound 2 1 0 3 (by decide) (by decide) (by decide) _
      (by simp [opInWindow] <;> decide)⟩

/-! C6 -/

theorem bumpActive_length : ∀ (l : List Server) (i : ℕ) (d : ℤ),
    (bumpActive l i d).length = l.length
  | [], _, _ => rfl
  | _ :: _, 0, _ => rfl
  | _ :: rest, i + 1, d => congrArg Nat.succ (bumpActive_length rest i d)

theorem bumpActive_add : ∀ (l : List Server) (i : ℕ) (d e : ℤ),
    bumpActive (bumpActive l i d) i e = bumpActive l i (d + e)
  | [], _, _, _ => rfl
  | s :: rest, 0, d, e => by simp [bumpActive, add_assoc]
  | s :: rest, i + 1, d, e => by
      simp only [bumpActive, List.cons.injEq, true_and]
      exact bumpActive_add rest i d e

theorem bumpActive_zero : ∀ (l : List Server) (i : ℕ), bumpActive l i 0 = l
  | [], _ => rfl
  | s :: rest, 0 => by simp [bumpActive]
  | s :: rest, i + 1 => by
      simp only [bumpActive, List.cons.injEq, true_and]
      exact bumpActive_zero rest i

theorem bumpActive_get_same : ∀ (l : List Server) (i : ℕ) (d : ℤ)
    (h : i < l.length) (h2 : i < (bumpActive l i d).length),
    (bumpActive l i d).get ⟨i, h2⟩
      = { l.get ⟨i, h⟩ with active := (l.get ⟨i, h⟩).active + d }
  | _ :: _, 0, _, _, _ => rfl
  | s :: rest, i + 1, d, h, h2 =>
      bumpActive_get_same rest i d (Nat.lt_of_succ_lt_succ h)
        (Nat.lt_of_succ_lt_succ h2)

theorem bumpActive_get_other : ∀ (l : List Server) (i j : ℕ) (d : ℤ)
    (hj : j < l.length) (hj2 : j < (bumpActive l i d).length), j ≠ i →
    (bumpActive l i d).get ⟨j, hj2⟩ = l.get ⟨j, hj⟩
  | _ :: _, 0, 0, _, _, _, hne => absurd rfl hne
  | _ :: _, 0, j + 1, _, _, _, _ => rfl
  | _ :: _, i + 1, 0, _, _, _, _ => rfl
  | s :: rest, i + 1, j + 1, d, hj, hj2, hne =>
      bumpActive_get_other rest i j d (Nat.lt_of_succ_lt_succ hj)
        (Nat.lt_of_succ_lt_succ hj2) (fun h => hne (congrArg Nat.succ h))

theorem bumpActive_one_nonneg : ∀ (l : List Server) (i : ℕ),
    (∀ s ∈ l, 0 ≤ s.active) → ∀ s ∈ bumpActive l i 1, 0 ≤ s.active
  | [], _, _ => by simp [bumpActive]
  | s :: rest, 0, h => by
      simp only [bumpActive, List.mem_cons]
      rintro x (rfl | hx)
      · have := h s (List.mem_cons_self _ _)
        simp only []
        omega
      · exact h x (List.mem_cons_of_mem _ hx)
  | s :: rest, i + 1, h => by
      simp only [bumpActive, List.mem_cons]
      rintro x (rfl | hx)
      · exact h x (List.mem_cons_self _ _)
      · exact bumpActive_one_nonneg rest i
          (fun y hy => h y (List.mem_cons_of_mem _ hy)) x hx

/-- C6: ServeHTTP increments the chosen backend's active count exactly
once before forwarding, leaves every other backend untouched, decrements
exactly once after forwarding regardless of the forwarding outcome (the
final pool equals the initial pool), keeps all counts nonnegative at the
intermediate state, and returns 503 without touching the pool when no
backend was picked. -/
theorem c6_active_count (ps : List Server) (i : ℕ) (hi : i < ps.length)
    (forward : List Server → ℕ → Bool) :
    (serveHTTP ps (some i) forward).1 = ps ∧
    (serveHTTP ps (some i) forward).2
        = DispatchResult.forwarded (forward (bumpActive ps i 1) i) ∧
    (∀ h2 : i < (bumpActive ps i 1).length,
      ((bumpActive ps i 1).get ⟨i, h2⟩).active = (ps.get ⟨i, hi⟩).active + 1) ∧
    (∀ j (hj : j < ps.length) (hj2 : j < (bumpActive ps i 1).length), j ≠ i →
      (bumpActive ps i 1).get ⟨j, hj2⟩ = ps.get ⟨j, hj⟩) ∧
    ((∀ s ∈ ps, 0 ≤ s.active) → ∀ s ∈ bumpActive ps i 1, 0 ≤ s.active) ∧
    serveHTTP ps none forward = (ps, DispatchResult.unavailable) := by
  refine ⟨?_, rfl, ?_, ?_, bumpActive_one_nonneg ps i, rfl⟩
  · show bumpActive (bumpActive ps i 1) i (-1) = ps
    rw [bumpActive_add]
    norm_num
    exact bumpActive_zero ps i
  · intro h2
    rw [bumpActive_get_same ps i 1 hi h2]
  · intro j hj hj2 hne
    exact bumpActive_get_other ps i j 1 hj hj2 hne

/-- Witness for C6: two backends, the second is picked and forwarding
fails; the pool is restored anyway. -/
theorem c6_active_count_witness :
    ((1 : ℕ) < ([⟨true, 0⟩, ⟨true, 2⟩] : List Server).length) ∧
    (serveHTTP [⟨true, 0⟩, ⟨true, 2⟩] (some 1) (fun _ _ => false)).1
        = [⟨true, 0⟩, ⟨true, 2⟩] ∧
    ((bumpActive [⟨true, 0⟩, ⟨true, 2⟩] 1 1).get ⟨1, by decide⟩).active
        = (([⟨true, 0⟩, ⟨true, 2⟩] : List Server).get ⟨1, by decide⟩).active + 1 :=
  ⟨by decide,
    (c6_active_count [⟨true, 0⟩, ⟨true, 2⟩] 1 (by decide) (fun _ _ => false)).1,
    (c6_active_count [⟨true, 0⟩, ⟨true, 2⟩] 1 (by decide) (fun _ _ => false)).2.2.1
      (by decide)⟩

/-! C7 -/

theorem setClientLimit_buckets (rl : RateLimiter) (now : ℚ) (c : String)
    (cap : ℤ) (rate : ℚ) :
    (setClientLimit rl now c cap rate).buckets
      = fun k => if k = c then
          some (match rl.buckets c with
                | some b => setLimitBucket cap rate b
                | none => mkBucket cap rate now)
        else rl.buckets k := by
  unfold setClientLimit
  cases rl.store <;> rfl

/-- C7: SetClientLimit on an existing bucket only overwrites capacity and
refillRate, clamps tokens down to the new capacity exactly when they
exceed it, and leaves lastRefill and lastAccess untouched; on a missing
bucket it installs a fresh bucket with tokens = capacity; other clients
are untouched; and the runtime change is kept even when the settings
store fails to persist it. -/
theorem c7_setLimit_semantics (rl : RateLimiter) (now : ℚ) (c : String)
    (cap : ℤ) (rate : ℚ) :
    (∀ b, rl.buckets c = some b →
      ∃ b2, (setClientLimit rl now c cap rate).buckets c = some b2 ∧
        b2.capacity = cap ∧ b2.refillRate = rate ∧
        (b.tokens ≤ cap → b2.tokens = b.tokens) ∧
        (cap < b.tokens → b2.tokens = cap) ∧
        b2.lastRefill = b.lastRefill ∧ b2.lastAccess = b.lastAccess) ∧
    (rl.buckets c = none →
      (setClientLimit rl now c cap rate).buckets c = some (mkBucket cap rate now) ∧
      (mkBucket cap rate now).tokens = cap) ∧
    (∀ k, k ≠ c → (setClientLimit rl now c cap rate).buckets k = rl.buckets k) ∧
    (∀ st, rl.store = some st → st.failSave = true →
      (setClientLimit rl now c cap rate).store = rl.store) := by
  refine ⟨?_, ?_, ?_, ?_⟩
  · intro b hbc
    refine ⟨setLimitBucket cap rate b, ?_, rfl, rfl, ?_, ?_, rfl, rfl⟩
    · rw [setClientLimit_buckets]
      simp [hbc]
    · intro h
      unfold setLimitBucket
      simp only []
      split <;> omega
    · intro h
      unfold setLimitBucket
      simp only []
      split <;> omega
  · intro h
    refine ⟨?_, rfl⟩
    rw [setClientLimit_buckets]
    simp [h]
  · intro k hk
    rw [setClientLimit_buckets]
    simp [hk]
  · intro st hst hfail
    unfold setClientLimit
    rw [hst]
    simp [storeSave, hfail]

/-- Witness for C7: an existing bucket of capacity 5 holding 5 tokens is
updated to capacity 2 with a failing store; the runtime table keeps the
update. -/
theorem c7_setLimit_semantics_witness :
    ((RateLimiter.mk (fun k => if k = "u1" then some ⟨5, 5, 0, 0, 0⟩ else none)
        100 10 (some ⟨fun _ => none, true, false⟩)).buckets "u1"
      = some ⟨5, 5, 0, 0, 0⟩) ∧
    (∃ b2, (setClientLimit (RateLimiter.mk
        (fun k => if k = "u1" then some ⟨5, 5, 0, 0, 0⟩ else none)
        100 10 (some ⟨fun _ => none, true, false⟩)) 7 "u1" 2 0).buckets "u1"
        = some b2 ∧
      b2.capacity = 2 ∧ b2.refillRate = 0 ∧
      ((⟨5, 5, 0, 0, 0⟩ : TokenBucket).tokens ≤ 2 →
        b2.tokens = (⟨5, 5, 0, 0, 0⟩ : TokenBucket).tokens) ∧
      (2 < (⟨5, 5, 0, 0, 0⟩ : TokenBucket).tokens → b2.tokens = 2) ∧
      b2.lastRefill = (⟨5, 5, 0, 0, 0⟩ : TokenBucket).lastRefill ∧
      b2.lastAccess = (⟨5, 5, 0, 0, 0⟩ : TokenBucket).lastAccess) ∧
    (setClientLimit (RateLimiter.mk
        (fun k => if k = "u1" then some ⟨5, 5, 0, 0, 0⟩ else none)
        100 10 (some ⟨fun _ => none, true, false⟩)) 7 "u1" 2 0).store
      = (RateLimiter.mk (fun k => if k = "u1" then some ⟨5, 5, 0, 0, 0⟩ else none)
        100 10 (some ⟨fun _ => none, true, false⟩)).store :=
  ⟨by decide,
    (c7_setLimit_semantics (RateLimiter.mk
        (fun k => if k = "u1" then some ⟨5, 5, 0, 0, 0⟩ else none)
        100 10 (some ⟨fun _ => none, true, false⟩)) 7 "u1" 2 0).1
      ⟨5, 5, 0, 0, 0⟩ (by decide),
    (c7_setLimit_semantics (RateLimiter.mk
        (fun k => if k = "u1" then some ⟨5, 5, 0, 0, 0⟩ else none)
        100 10 (some ⟨fun _ => none, true, false⟩)) 7 "u1" 2 0).2.2.2
      ⟨fun _ => none, true, false⟩ rfl rfl⟩

/-! C8 -/

theorem deleteClientLimit_eq_none (rl : RateLimiter) (c : String)
    (h : rl.store = none) :
    deleteClientLimit rl c
      = ({ rl with buckets := fun k => if k = c then none else rl.buckets k },
          true) := by
  unfold deleteClientLimit
  rw [h]

theorem deleteClientLimit_eq_some (rl : RateLimiter) (c : String) (st : Store)
    (h : rl.store = some st) :
    deleteClientLimit rl c
      = ({ rl with buckets := fun k => if k = c then none else rl.buckets k
                   store := some (storeDelete st c).1 },
          (storeDelete st c).2) := by
  unfold deleteClientLimit
  rw [h]

/-- C8: DeleteClientLimit always removes the bucket from the runtime
table; when it reports success and a store is present afterwards, the
store record is gone as well; a failing store makes it report failure,
which the Control API delete handler surfaces as HTTP 500 for a known
client. -/
theorem c8_deleteLimit_propagation (rl : RateLimiter) (c : String) :
    (deleteClientLimit rl c).1.buckets c = none ∧
    (∀ st, (deleteClientLimit rl c).2 = true →
      (deleteClientLimit rl c).1.store = some st → st.limits c = none) ∧
    (∀ st, rl.store = some st → st.failDelete = true →
      (deleteClientLimit rl c).2 = false ∧
      ((getClientLimit rl c).2.2 = true → (deleteClientHandler rl c).2 = 500)) := by
  refine ⟨?_, ?_, ?_⟩
  · cases hrs : rl.store with
    | none => rw [deleteClientLimit_eq_none rl c hrs]; simp
    | some st0 => rw [deleteClientLimit_eq_some rl c st0 hrs]; simp
  · intro st hok hst
    cases hrs : rl.store with
    | none =>
      rw [deleteClientLimit_eq_none rl c hrs] at hst
      have h2 : rl.store = some st := hst
      rw [hrs] at h2
      simp at h2
    | some st0 =>
      rw [deleteClientLimit_eq_some rl c st0 hrs] at hok hst
      by_cases hf : st0.failDelete
      · simp [storeDelete, hf] at hok
      · simp [storeDelete, hf] at hst
        rw [← hst]
        simp
  · intro st hst hfail
    have hp2 : (deleteClientLimit rl c).2 = false := by
      rw [deleteClientLimit_eq_some rl c st hst]
      simp [storeDelete, hfail]
    refine ⟨hp2, ?_⟩
    intro hex
    simp [deleteClientHandler, hex, hp2]

/-- Witness for C8: a known client and a store whose delete fails; the
delete reports failure, the handler answers 500, and the runtime bucket
is gone regardless. -/
theorem c8_deleteLimit_propagation_witness :
    ((RateLimiter.mk (fun k => if k = "u1" then some ⟨3, 3, 1, 0, 0⟩ else none)
        100 10 (some ⟨fun k => if k = "u1" then some ⟨3, 1⟩ else none,
          false, true⟩)).store
      = some ⟨fun k => if k = "u1" then some ⟨3, 1⟩ else none, false, true⟩) ∧
    (deleteClientLimit (RateLimiter.mk
        (fun k => if k = "u1" then some ⟨3, 3, 1, 0, 0⟩ else none)
        100 10 (some ⟨fun k => if k = "u1" then some ⟨3, 1⟩ else none,
          false, true⟩)) "u1").1.buckets "u1" = none ∧
    (deleteClientLimit (RateLimiter.mk
        (fun k => if k = "u1" then some ⟨3, 3, 1, 0, 0⟩ else none)
        100 10 (some ⟨fun k => if k = "u1" then some ⟨3, 1⟩ else none,
          false, true⟩)) "u1").2 = false ∧
    (deleteClientHandler (RateLimiter.mk
        (fun k => if k = "u1" then some ⟨3, 3, 1, 0, 0⟩ else none)
        100 10 (some ⟨fun k => if k = "u1" then some ⟨3, 1⟩ else none,
          false, true⟩)) "u1").2 = 500 :=
  ⟨rfl,
    (c8_deleteLimit_propagation (RateLimiter.mk
        (fun k => if k = "u1" then some ⟨3, 3, 1, 0, 0⟩ else none)
        100 10 (some ⟨fun k => if k = "u1" then some ⟨3, 1⟩ else none,
          false, true⟩)) "u1").1,
    ((c8_deleteLimit_propagation (RateLimiter.mk
        (fun k => if k = "u1" then some ⟨3, 3, 1, 0, 0⟩ else none)
        100 10 (some ⟨fun k => if k = "u1" then some ⟨3, 1⟩ else none,
          false, true⟩)) "u1").2.2
      ⟨fun k => if k = "u1" then some ⟨3, 1⟩ else none, false, true⟩ rfl rfl).1,
    ((c8_deleteLimit_propagation (RateLimiter.mk
        (fun k => if k = "u1" then some ⟨3, 3, 1, 0, 0⟩ else none)
        100 10 (some ⟨fun k => if k = "u1" then some ⟨3, 1⟩ else none,
          false, true⟩)) "u1").2.2
      ⟨fun k => if k = "u1" then some ⟨3, 1⟩ else none, false, true⟩ rfl rfl).2
      (by decide)⟩

/-! C9 -/

/-- C9: GetClientLimit reads only the runtime table: with no bucket it
returns the configured defaults and exists = false, with a bucket it
returns that bucket's settings and exists = true, and its result is
unchanged under any replacement of the settings store, in particular
when the store does hold a record for the client. -/
theorem c9_getLimit_runtime_only (rl : RateLimiter) (c : String) :
    (rl.buckets c = none →
      getClientLimit rl c = (rl.defaultCap, rl.defaultRate, false)) ∧
    (∀ b, rl.buckets c = some b →
      getClientLimit rl c = (b.capacity, b.refillRate, true)) ∧
    (∀ st, getClientLimit { rl with store := st } c = getClientLimit rl c) := by
  refine ⟨?_, ?_, ?_⟩
  · intro h
    unfold getClientLimit
    rw [h]
  · intro b h
    unfold getClientLimit
    rw [h]
  · intro st
    unfold getClientLimit
    rfl

/-- Witness for C9: the runtime table has no bucket for u2 while the
store does hold a record for u2; GetClientLimit still answers the
defaults with exists = false, and replacing the store does not change
the answer. -/
theorem c9_getLimit_runtime_only_witness :
    ((RateLimiter.mk (fun _ => none) 100 10
        (some ⟨fun k => if k = "u2" then some ⟨7, 2⟩ else none,
          false, false⟩)).buckets "u2" = none) ∧
    getClientLimit (RateLimiter.mk (fun _ => none) 100 10
        (some ⟨fun k => if k = "u2" then some ⟨7, 2⟩ else none,
          false, false⟩)) "u2" = (100, 10, false) ∧
    getClientLimit { RateLimiter.mk (fun _ => none) 100 10
        (some ⟨fun k => if k = "u2" then some ⟨7, 2⟩ else none,
          false, false⟩) with store := none } "u2"
      = getClientLimit (RateLimiter.mk (fun _ => none) 100 10
        (some ⟨fun k => if k = "u2" then some ⟨7, 2⟩ else none,
          false, false⟩)) "u2" :=
  ⟨rfl,
    (c9_getLimit_runtime_only (RateLimiter.mk (fun _ => none) 100 10
        (some ⟨fun k => if k = "u2" then some ⟨7, 2⟩ else none,
          false, false⟩)) "u2").1 rfl,
    (c9_getLimit_runtime_only (RateLimiter.mk (fun _ => none) 100 10
        (some ⟨fun k => if k = "u2" then some ⟨7, 2⟩ else none,
          false, false⟩)) "u2").2.2 none⟩

/-! C10 -/

theorem allow_false_of_nonpos {b : TokenBucket} (t : ℚ)
    (h1 : b.tokens ≤ b.capacity) (h2 : b.capacity ≤ 0) :
    (allow t b).1 = false ∧ (allow t b).2.tokens ≤ (allow t b).2.capacity ∧
      (allow t b).2.capacity ≤ 0 := by
  have hrt : (refillBucket t b).tokens ≤ b.capacity := by
    rw [refillBucket_eq]
    split
    · exact min_le_right _ _
    · exact h1
  have hcap := refillBucket_capacity t b
  have hnot : ¬ 0 < (refillBucket t b).tokens := by omega
  rw [allow_eq]
  rw [if_neg hnot]
  refine ⟨rfl, ?_, ?_⟩
  · show (refillBucket t b).tokens ≤ (refillBucket t b).capacity
    omega
  · show (refillBucket t b).capacity ≤ 0
    omega

theorem admitResults_replicate : ∀ (ts : List ℚ) (b : TokenBucket),
    b.tokens ≤ b.capacity → b.capacity ≤ 0 →
    admitResults b ts = List.replicate ts.length false
  | [], _, _, _ => rfl
  | t :: ts, b, h1, h2 => by
    obtain ⟨hf, hles, hcap⟩ := allow_false_of_nonpos t h1 h2
    simp only [admitResults, List.length_cons, List.replicate_succ, hf,
      List.cons.injEq, true_and]
    exact admitResults_replicate ts (allow t b).2 hles hcap

/-- C10: SetClientLimit and the Control API create path validate nothing:
for any capacity, zero or negative included, creating a client with no
existing bucket answers 201 and installs a bucket whose tokens equal the
capacity; and with capacity at most 0 every subsequent Admit returns
false. -/
theorem c10_no_positivity_check (rl : RateLimiter) (now : ℚ) (c : String)
    (cap : ℤ) (rate : ℚ) (hnone : rl.buckets c = none) (hc : c ≠ "") :
    (createClientHandler rl now (some (cap, rate)) c).2 = 201 ∧
    (createClientHandler rl now (some (cap, rate)) c).1.buckets c
        = some (mkBucket cap rate now) ∧
    (mkBucket cap rate now).tokens = cap ∧
    (cap ≤ 0 → ∀ ts : List ℚ,
      admitResults (mkBucket cap rate now) ts
        = List.replicate ts.length false) := by
  have hch : createClientHandler rl now (some (cap, rate)) c
      = (setClientLimit rl now c cap rate, 201) := by
    unfold createClientHandler
    simp [hc]
  refine ⟨by rw [hch], ?_, rfl, ?_⟩
  · rw [hch]
    show (setClientLimit rl now c cap rate).buckets c = some (mkBucket cap rate now)
    rw [setClientLimit_buckets]
    simp [hnone]
  · intro hcap ts
    exact admitResults_replicate ts (mkBucket cap rate now) (le_refl _) hcap

/-- Witness for C10: creating client u9 with negative capacity -2 answers
201, installs tokens = -2, and three subsequent Admit calls all fail. -/
theorem c10_no_positivity_check_witness :
    ((RateLimiter.mk (fun _ => none) 100 10 none).buckets "u9" = none ∧
      ("u9" : String) ≠ "") ∧
    (createClientHandler (RateLimiter.mk (fun _ => none) 100 10 none)
        0 (some (-2, 1)) "u9").2 = 201 ∧
    (createClientHandler (RateLimiter.mk (fun _ => none) 100 10 none)
        0 (some (-2, 1)) "u9").1.buckets "u9" = some (mkBucket (-2) 1 0) ∧
    admitResults (mkBucket (-2) 1 0) [0, 1, 2]
      = List.replicate ([0, 1, 2] : List ℚ).length false :=
  ⟨⟨rfl, by decide⟩,
    (c10_no_positivity_check (RateLimiter.mk (fun _ => none) 100 10 none)
      0 "u9" (-2) 1 rfl (by decide)).1,
    (c10_no_positivity_check (RateLimiter.mk (fun _ => none) 100 10 none)
      0 "u9" (-2) 1 rfl (by decide)).2.1,
    (c10_no_positivity_check (RateLimiter.mk (fun _ => none) 100 10 none)
      0 "u9" (-2) 1 rfl (by decide)).2.2.2 (by decide) [0, 1, 2]⟩

/-! C5 -/

theorem getD_eq_get {l : List Server} {n : ℕ} (h : n < l.length) :
    l.getD n default = l.get ⟨n, h⟩ := by
  rw [List.getD_eq_get?, List.get?_eq_get h]
  rfl

theorem lcFind_none_iff : ∀ (l : List Server),
    lcFind l = none ↔ ∀ s ∈ l, s.healthy = false
  | [] => by simp [lcFind]
  | s :: rest => by
    have ih := lcFind_none_iff rest
    by_cases hs : s.healthy
    · have hL : lcFind (s :: rest) ≠ none := by
        simp only [lcFind, hs, if_true]
        cases hr : lcFind rest with
        | none => simp
        | some p =>
          obtain ⟨k, a⟩ := p
          by_cases hle : s.active ≤ a <;> simp [hle]
      constructor
      · intro h
        exact absurd h hL
      · intro h
        exact absurd (h s (List.mem_cons_self _ _)) (by simp [hs])
    · have hs2 : s.healthy = false := by simpa using hs
      simp only [lcFind, hs2, Bool.false_eq_true, if_false]
      rw [Option.map_eq_none', ih]
      simp [List.forall_mem_cons, hs2]

theorem lcFind_some_spec : ∀ (l : List Server) (k : ℕ) (a : ℤ),
    lcFind l = some (k, a) →
    ∃ h : k < l.length, (l.get ⟨k, h⟩).healthy = true ∧
      a = (l.get ⟨k, h⟩).active ∧
      ∀ j (hj : j < l.length), (l.get ⟨j, hj⟩).healthy = true →
        a ≤ (l.get ⟨j, hj⟩).active ∧ (j < k → a < (l.get ⟨j, hj⟩).active)
  | [], k, a => by simp [lcFind]
  | s :: rest, k, a => by
    intro h
    by_cases hs : s.healthy
    · cases hr : lcFind rest with
      | none =>
        rw [lcFind, hr] at h
        simp only [hs, if_true] at h
        obtain ⟨hk, ha⟩ : 0 = k ∧ s.active = a := by
          simpa using h
        subst hk
        refine ⟨Nat.succ_pos _, by simpa using hs, ha.symm, ?_⟩
        intro j hj hhj
        cases j with
        | zero =>
          exact ⟨le_of_eq ha.symm, by omega⟩
        | succ j2 =>
          have hall := (lcFind_none_iff rest).mp hr
          have hj2 : j2 < rest.length := Nat.lt_of_succ_lt_succ hj
          have hmem : rest.get ⟨j2, hj2⟩ ∈ rest := List.get_mem _ _ _
          have := hall _ hmem
          rw [List.get_cons_succ] at hhj
          rw [hhj] at this
          exact absurd this (by simp)
      | some p =>
        obtain ⟨k0, a0⟩ := p
        obtain ⟨hk0, hh0, ha0, hmin0⟩ := lcFind_some_spec rest k0 a0 hr
        rw [lcFind, hr] at h
        simp only [hs, if_true] at h
        by_cases hle : s.active ≤ a0
        · rw [if_pos hle] at h
          obtain ⟨hk, ha⟩ : 0 = k ∧ s.active = a := by simpa using h
          subst hk
          refine ⟨Nat.succ_pos _, by simpa using hs, ha.symm, ?_⟩
          intro j hj hhj
          cases j with
          | zero => exact ⟨le_of_eq ha.symm, by omega⟩
          | succ j2 =>
            have hj2 : j2 < rest.length := Nat.lt_of_succ_lt_succ hj
            rw [List.get_cons_succ] at hhj ⊢
            have := (hmin0 j2 hj2 hhj).1
            exact ⟨by omega, by omega⟩
        · rw [if_neg hle] at h
          have hlt : a0 < s.active := not_le.mp hle
          obtain ⟨hk, ha⟩ : k0 + 1 = k ∧ a0 = a := by simpa using h
          subst hk
          subst ha
          refine ⟨Nat.succ_lt_succ hk0, by simpa using hh0, by simpa using ha0, ?_⟩
          intro j hj hhj
          cases j with
          | zero =>
            exact ⟨le_of_lt hlt, fun _ => hlt⟩
          | succ j2 =>
            have hj2 : j2 < rest.length := Nat.lt_of_succ_lt_succ hj
            rw [List.get_cons_succ] at hhj ⊢
            have := hmin0 j2 hj2 hhj
            exact ⟨this.1, fun hlt2 => this.2 (Nat.lt_of_succ_lt_succ hlt2)⟩
    · have hs2 : s.healthy = false := by simpa using hs
      rw [lcFind] at h
      simp only [hs2, Bool.false_eq_true, if_false] at h
      cases hr : lcFind rest with
      | none =>
        rw [hr] at h
        simp at h
      | some p =>
        obtain ⟨k0, a0⟩ := p
        rw [hr] at h
        obtain ⟨hk, ha⟩ : k0 + 1 = k ∧ a0 = a := by simpa using h
        subst hk
        subst ha
        obtain ⟨hk0, hh0, ha0, hmin0⟩ := lcFind_some_spec rest k0 a0 hr
        refine ⟨Nat.succ_lt_succ hk0, by simpa using hh0, by simpa using ha0, ?_⟩
        intro j hj hhj
        cases j with
        | zero =>
          have hget : ((s :: rest).get ⟨0, hj⟩) = s := rfl
          rw [hget, hs2] at hhj
          exact absurd hhj (by simp)
        | succ j2 =>
          have hj2 : j2 < rest.length := Nat.lt_of_succ_lt_succ hj
          rw [List.get_cons_succ] at hhj ⊢
          have := hmin0 j2 hj2 hhj
          exact ⟨this.1, fun hlt2 => this.2 (Nat.lt_of_succ_lt_succ hlt2)⟩

theorem lcLoop_eq : ∀ (l : List Server) (i : ℕ) (best : Option (ℕ × ℤ)),
    lcLoop l i best =
      match best, lcFind l with
      | none, none => none
      | none, some (k, a) => some (i + k, a)
      | some (bi, bc), none => some (bi, bc)
      | some (bi, bc), some (k, a) =>
          if a < bc then some (i + k, a) else some (bi, bc)
  | [], i, best => by
    cases best with
    | none => rfl
    | some p => obtain ⟨bi, bc⟩ := p; rfl
  | s :: rest, i, best => by
    have ih := lcLoop_eq rest (i + 1)
    by_cases hs : s.healthy
    · cases best with
      | none =>
        simp only [lcLoop, hs, if_true]
        rw [ih (some (i, s.active))]
        simp only [lcFind, hs, if_true]
        cases hr : lcFind rest with
        | none => simp
        | some p =>
          obtain ⟨k, a⟩ := p
          by_cases hle : s.active ≤ a
          · simp [hle, not_lt.mpr hle]
          · have hlt : a < s.active := not_le.mp hle
            simp only [hle, if_false, hlt, if_true]
            have : i + 1 + k = i + (k + 1) := by omega
            rw [this]
      | some p =>
        obtain ⟨bi, bc⟩ := p
        simp only [lcLoop, hs, if_true]
        by_cases hsb : s.active < bc
        · rw [if_pos hsb, ih (some (i, s.active))]
          simp only [lcFind, hs, if_true]
          cases hr : lcFind rest with
          | none => simp [hsb]
          | some p2 =>
            obtain ⟨k, a⟩ := p2
            by_cases hle : s.active ≤ a
            · simp [hle, hsb]
            · have hlt : a < s.active := not_le.mp hle
              have hltb : a < bc := lt_trans hlt hsb
              simp only [hle, if_false, hlt, if_true, hltb,
                Option.some.injEq, Prod.mk.injEq]
              exact ⟨by omega, trivial⟩
        · rw [if_neg hsb, ih (some (bi, bc))]
          have hbc : bc ≤ s.active := not_lt.mp hsb
          simp only [lcFind, hs, if_true]
          cases hr : lcFind rest with
          | none => simp [not_lt.mpr hbc]
          | some p2 =>
            obtain ⟨k, a⟩ := p2
            by_cases hle : s.active ≤ a
            · have h1 : ¬ a < bc := by omega
              simp [hle, h1, hsb]
            · simp only [hle, if_false]
              by_cases hab : a < bc
              · simp only [hab, if_true, Option.some.injEq, Prod.mk.injEq]
                exact ⟨by omega, trivial⟩
              · simp [hab]
    · have hs2 : s.healthy = false := by simpa using hs
      simp only [lcLoop, hs2, Bool.false_eq_true, if_false]
      rw [ih best]
      simp only [lcFind, hs2, Bool.false_eq_true, if_false]
      cases best with
      | none =>
        cases hr : lcFind rest with
        | none => simp
        | some p =>
          obtain ⟨k, a⟩ := p
          simp only [Option.map_some', Option.some.injEq, Prod.mk.injEq]
          exact ⟨by omega, trivial⟩
      | some p =>
        obtain ⟨bi, bc⟩ := p
        cases hr : lcFind rest with
        | none => simp
        | some p2 =>
          obtain ⟨k, a⟩ := p2
          simp only [Option.map_some']
          by_cases hab : a < bc
          · simp only [hab, if_true, Option.some.injEq, Prod.mk.injEq]
            exact ⟨by omega, trivial⟩
          · simp [hab]

theorem lcNextServer_eq (ps : List Server) :
    lcNextServer ps = (lcFind ps).map Prod.fst := by
  unfold lcNextServer
  by_cases h : ps.length = 0
  · have hnil : ps = [] := List.length_eq_zero.mp h
    subst hnil
    simp [lcFind]
  · rw [if_neg h, lcLoop_eq]
    cases hr : lcFind ps with
    | none => rfl
    | some p =>
      obtain ⟨k, a⟩ := p
      simp

theorem rrLoop_some_healthy (ps : List Server) (init : ℤ) :
    ∀ (f : ℕ) (cur : ℤ) (i : ℕ) (cur2 : ℤ), 0 ≤ cur + 1 → 0 < ps.length →
    rrLoop ps init cur f = (some i, cur2) →
    ∃ h : i < ps.length, (ps.get ⟨i, h⟩).healthy = true := by
  intro f
  induction f with
  | zero =>
    intro cur i cur2 _ _ h
    simp [rrLoop] at h
  | succ f ih =>
    intro cur i cur2 hc hn h
    rw [rrLoop] at h
    by_cases hh : (ps.getD ((cur + 1).tmod ps.length).toNat default).healthy
    · simp only [hh, if_true] at h
      obtain ⟨hi, -⟩ : ((cur + 1).tmod ps.length).toNat = i ∧ (cur + 1).tmod ps.length = cur2 := by
        simpa using h
      subst hi
      have hm0 : 0 ≤ (cur + 1).tmod ps.length := Int.tmod_nonneg _ hc
      have hmlt : (cur + 1).tmod ps.length < (ps.length : ℤ) :=
        Int.tmod_lt_of_pos _ (by exact_mod_cast hn)
      have hilt : ((cur + 1).tmod (ps.length : ℤ)).toNat < ps.length := by omega
      refine ⟨hilt, ?_⟩
      rw [getD_eq_get hilt] at hh
      exact hh
    · simp only [hh, if_false] at h
      by_cases hinit : (cur + 1).tmod ps.length = init
      · rw [if_pos hinit] at h
        simp at h
      · rw [if_neg hinit] at h
        have hm0 : 0 ≤ (cur + 1).tmod ps.length := Int.tmod_nonneg _ hc
        exact ih _ i cur2 (by omega) hn h

/-- C5: least-connections returns none exactly when no backend is
healthy; otherwise it returns a healthy backend whose active count is
minimal among healthy backends, ties broken by the first occurrence in
pool order; and round-robin (like least-connections) never returns a
backend whose healthy flag is false. -/
theorem c5_leastConn_min_healthy (ps : List Server) :
    (lcNextServer ps = none ↔ ∀ s ∈ ps, s.healthy = false) ∧
    (∀ i, lcNextServer ps = some i →
      ∃ h : i < ps.length, (ps.get ⟨i, h⟩).healthy = true ∧
        ∀ j (hj : j < ps.length), (ps.get ⟨j, hj⟩).healthy = true →
          (ps.get ⟨i, h⟩).active ≤ (ps.get ⟨j, hj⟩).active ∧
          (j < i → (ps.get ⟨i, h⟩).active < (ps.get ⟨j, hj⟩).active)) ∧
    (∀ (c : ℤ) i cur2, -1 ≤ c → rrNextServer ps c = (some i, cur2) →
      ∃ h : i < ps.length, (ps.get ⟨i, h⟩).healthy = true) := by
  refine ⟨?_, ?_, ?_⟩
  · rw [lcNextServer_eq, Option.map_eq_none']
    exact lcFind_none_iff ps
  · intro i h
    rw [lcNextServer_eq] at h
    cases hr : lcFind ps with
    | none => rw [hr] at h; simp at h
    | some p =>
      obtain ⟨k, a⟩ := p
      rw [hr] at h
      have hk : k = i := by simpa using h
      subst hk
      obtain ⟨hlt, hh, ha, hmin⟩ := lcFind_some_spec ps k a hr
      refine ⟨hlt, hh, ?_⟩
      intro j hj hhj
      have := hmin j hj hhj
      rw [ha] at this
      exact this
  · intro c i cur2 hc h
    unfold rrNextServer at h
    by_cases hn : ps.length = 0
    · rw [if_pos hn] at h
      simp at h
    · rw [if_neg hn] at h
      exact rrLoop_some_healthy ps c ps.length c i cur2 (by omega)
        (Nat.pos_of_ne_zero hn) h

/-- Witness for C5: pool with an unhealthy head and two healthy backends
with active counts 2 and 1; least-connections picks index 2 and that
backend is healthy with minimal count. -/
theorem c5_leastConn_min_healthy_witness :
    lcNextServer [⟨false, 0⟩, ⟨true, 2⟩, ⟨true, 1⟩] = some 2 ∧
    (∃ h : 2 < ([⟨false, 0⟩, ⟨true, 2⟩, ⟨true, 1⟩] : List Server).length,
      (([⟨false, 0⟩, ⟨true, 2⟩, ⟨true, 1⟩] : List Server).get ⟨2, h⟩).healthy = true ∧
        ∀ j (hj : j < ([⟨false, 0⟩, ⟨true, 2⟩, ⟨true, 1⟩] : List Server).length),
          (([⟨false, 0⟩, ⟨true, 2⟩, ⟨true, 1⟩] : List Server).get ⟨j, hj⟩).healthy = true →
          (([⟨false, 0⟩, ⟨true, 2⟩, ⟨true, 1⟩] : List Server).get ⟨2, h⟩).active
              ≤ (([⟨false, 0⟩, ⟨true, 2⟩, ⟨true, 1⟩] : List Server).get ⟨j, hj⟩).active ∧
          (j < 2 → (([⟨false, 0⟩, ⟨true, 2⟩, ⟨true, 1⟩] : List Server).get ⟨2, h⟩).active
              < (([⟨false, 0⟩, ⟨true, 2⟩, ⟨true, 1⟩] : List Server).get ⟨j, hj⟩).active)) :=
  ⟨by decide,
    (c5_leastConn_min_healthy [⟨false, 0⟩, ⟨true, 2⟩, ⟨true, 1⟩]).2.1 2 (by decide)⟩

/-! C4 -/

theorem getD_default_of_le : ∀ {l : List Server} {n : ℕ}, l.length ≤ n →
    l.getD n default = default
  | [], _, _ => rfl
  | _ :: _, 0, h => by simp at h
  | _ :: rest, n + 1, h =>
    getD_default_of_le (l := rest) (Nat.le_of_succ_le_succ h)

theorem tmod_shift (n : ℤ) (hn : 0 < n) (a m : ℤ) (ha : 0 ≤ a) (hm : 0 ≤ m) :
    (a.tmod n + m).tmod n = (a + m).tmod n := by
  have hnn : (0 : ℤ) ≤ n := le_of_lt hn
  have h0 : 0 ≤ a % n := Int.emod_nonneg a (by omega)
  have e1 : a.tmod n = a % n := Int.tmod_eq_emod ha hnn
  rw [e1]
  have e2 : (a % n + m).tmod n = (a % n + m) % n :=
    Int.tmod_eq_emod (by omega) hnn
  have e3 : (a + m).tmod n = (a + m) % n := Int.tmod_eq_emod (by omega) hnn
  rw [e2, e3]
  exact Int.emod_add_emod a n m

theorem scanPositions_succ (n : ℕ) (cur : ℤ) (hn : 0 < n) (hcur : 0 ≤ cur + 1)
    (f : ℕ) :
    scanPositions n cur (f + 1)
      = ((cur + 1).tmod n).toNat :: scanPositions n ((cur + 1).tmod n) f := by
  have hn2 : (0 : ℤ) < (n : ℤ) := by exact_mod_cast hn
  unfold scanPositions
  rw [List.range_succ_eq_map, List.map_cons, List.map_map]
  congr 1
  · norm_num
  · apply List.map_congr_left
    intro k _
    show ((cur + 1 + ((k + 1 : ℕ) : ℤ)).tmod n).toNat
        = (((cur + 1).tmod n + 1 + (k : ℤ)).tmod n).toNat
    have hsh := tmod_shift (n : ℤ) hn2 (cur + 1) (1 + (k : ℤ)) hcur (by positivity)
    have e1 : (cur + 1).tmod n + 1 + (k : ℤ) = (cur + 1).tmod n + (1 + (k : ℤ)) := by
      ring
    have e2 : cur + 1 + ((k + 1 : ℕ) : ℤ) = cur + 1 + (1 + (k : ℤ)) := by
      push_cast
      ring
    rw [e1, e2, hsh]

theorem rrLoop_spec (ps : List Server) (init : ℤ) : ∀ (f : ℕ) (cur : ℤ),
    0 < ps.length → 0 ≤ cur + 1 →
    (∀ k : ℕ, k + 1 < f → (cur + 1 + (k : ℤ)).tmod ps.length ≠ init) →
    rrLoop ps init cur f =
      match (scanPositions ps.length cur f).find?
          (fun i => (ps.getD i default).healthy) with
      | some i => (some i, (i : ℤ))
      | none => (none, if f = 0 then cur else (cur + (f : ℤ)).tmod ps.length) := by
  intro f
  induction f with
  | zero =>
    intro cur hn hc hbrk
    simp [rrLoop, scanPositions]
  | succ f ih =>
    intro cur hn hc hbrk
    have hn2 : (0 : ℤ) < (ps.length : ℤ) := by exact_mod_cast hn
    have hm0 : 0 ≤ (cur + 1).tmod ps.length := Int.tmod_nonneg _ hc
    rw [scanPositions_succ ps.length cur hn hc f]
    simp only [rrLoop]
    by_cases hh : (ps.getD ((cur + 1).tmod ps.length).toNat default).healthy
    · have hfind : List.find? (fun i => (ps.getD i default).healthy)
          ((((cur + 1).tmod ps.length).toNat) ::
            scanPositions ps.length ((cur + 1).tmod ps.length) f)
          = some (((cur + 1).tmod ps.length).toNat) := by
        simp only [List.find?, hh]
      rw [if_pos hh, hfind]
      simp [Int.toNat_of_nonneg hm0]
    · have hfind : List.find? (fun i => (ps.getD i default).healthy)
          ((((cur + 1).tmod ps.length).toNat) ::
            scanPositions ps.length ((cur + 1).tmod ps.length) f)
          = List.find? (fun i => (ps.getD i default).healthy)
              (scanPositions ps.length ((cur + 1).tmod ps.length) f) := by
        have hh4 : (ps.getD ((cur + 1).tmod ps.length).toNat default).healthy
            = false := by simpa using hh
        simp only [List.find?, hh4]
      rw [if_neg hh, hfind]
      by_cases hinit : (cur + 1).tmod ps.length = init
      · rw [if_pos hinit]
        have hf0 : f = 0 := by
          by_contra hne
          exact hbrk 0 (by omega) (by simpa using hinit)
        subst hf0
        simp only [scanPositions, List.range_zero, List.map_nil, List.find?_nil]
        norm_num
      · rw [if_neg hinit]
        have hbrk2 : ∀ k : ℕ, k + 1 < f →
            ((cur + 1).tmod ps.length + 1 + (k : ℤ)).tmod ps.length ≠ init := by
          intro k hk hcon
          apply hbrk (k + 1) (by omega)
          have hsh := tmod_shift ((ps.length : ℤ)) hn2 (cur + 1) (1 + (k : ℤ))
            hc (by positivity)
          have e1 : (cur + 1).tmod ps.length + 1 + (k : ℤ)
              = (cur + 1).tmod ps.length + (1 + (k : ℤ)) := by ring
          have e2 : cur + 1 + ((k + 1 : ℕ) : ℤ) = cur + 1 + (1 + (k : ℤ)) := by
            push_cast
            ring
          rw [e1, hsh] at hcon
          rw [e2]
          exact hcon
        rw [ih ((cur + 1).tmod ps.length) hn (by omega) hbrk2]
        cases hfind : (scanPositions ps.length ((cur + 1).tmod ps.length) f).find?
            (fun i => (ps.getD i default).healthy) with
        | some i => rfl
        | none =>
          simp only []
          cases f with
          | zero => norm_num
          | succ f2 =>
            have hsh := tmod_shift ((ps.length : ℤ)) hn2 (cur + 1)
              ((f2 : ℤ) + 1) hc (by positivity)
            have e1 : (cur + 1).tmod ps.length + ((f2 + 1 : ℕ) : ℤ)
                = (cur + 1).tmod ps.length + ((f2 : ℤ) + 1) := by push_cast; ring
            have e2 : cur + ((f2 + 1 + 1 : ℕ) : ℤ) = cur + 1 + ((f2 : ℤ) + 1) := by
              push_cast
              ring
            simp only [Nat.succ_ne_zero, if_false]
            rw [e1, e2, hsh]

theorem rr_no_revisit (n : ℤ) (hn : 0 < n) (c : ℤ) (hc : -1 ≤ c) (hlt : c < n) :
    ∀ k : ℕ, (k : ℤ) + 1 < n → (c + 1 + (k : ℤ)).tmod n ≠ c := by
  intro k hk hcon
  have hnn : (0 : ℤ) ≤ n := le_of_lt hn
  have hk0 : (0 : ℤ) ≤ (k : ℤ) := by positivity
  have h0 : 0 ≤ c + 1 + (k : ℤ) := by omega
  have he : (c + 1 + (k : ℤ)).tmod n = (c + 1 + (k : ℤ)) % n :=
    Int.tmod_eq_emod h0 hnn
  rw [he] at hcon
  have hm0 : 0 ≤ (c + 1 + (k : ℤ)) % n := Int.emod_nonneg _ (by omega)
  have hc0 : 0 ≤ c := by omega
  have hcc : c % n = c := Int.emod_eq_of_lt hc0 hlt
  have heq : (c + 1 + (k : ℤ)) % n = c % n := by rw [hcon, hcc]
  have h2 := Int.emod_eq_emod_iff_emod_sub_eq_zero.mp heq
  have h3 : (c + 1 + (k : ℤ)) - c = 1 + (k : ℤ) := by ring
  rw [h3] at h2
  have hdvd : n ∣ (1 + (k : ℤ)) := Int.dvd_of_emod_eq_zero h2
  have := Int.le_of_dvd (by omega) hdvd
  omega

theorem scan_covers (ps : List Server) (c : ℤ) (hc : 0 ≤ c + 1) (j : ℕ)
    (hj : j < ps.length) : j ∈ scanPositions ps.length c ps.length := by
  have hn : 0 < ps.length := by omega
  have hn2 : (0 : ℤ) < (ps.length : ℤ) := by exact_mod_cast hn
  have hk0 : 0 ≤ ((j : ℤ) - (c + 1)) % (ps.length : ℤ) :=
    Int.emod_nonneg _ (by omega)
  have hklt : ((j : ℤ) - (c + 1)) % (ps.length : ℤ) < (ps.length : ℤ) :=
    Int.emod_lt_of_pos _ hn2
  refine List.mem_map.mpr ⟨(((j : ℤ) - (c + 1)) % (ps.length : ℤ)).toNat, ?_, ?_⟩
  · refine List.mem_range.mpr ?_
    omega
  · have hcast : (((((j : ℤ) - (c + 1)) % (ps.length : ℤ)).toNat : ℤ))
        = ((j : ℤ) - (c + 1)) % (ps.length : ℤ) := Int.toNat_of_nonneg hk0
    rw [hcast]
    have h1 : (c + 1 + ((j : ℤ) - (c + 1)) % (ps.length : ℤ)).tmod ps.length
        = (c + 1 + ((j : ℤ) - (c + 1)) % (ps.length : ℤ)) % (ps.length : ℤ) :=
      Int.tmod_eq_emod (by omega) (by omega)
    rw [h1, Int.add_emod_emod]
    have h2 : c + 1 + ((j : ℤ) - (c + 1)) = (j : ℤ) := by ring
    rw [h2, Int.emod_eq_of_lt (by positivity) (by exact_mod_cast hj)]
    omega

theorem firstHealthy_none_iff (ps : List Server) (c : ℤ) (hc : -1 ≤ c) :
    firstHealthy ps c = none ↔ ∀ s ∈ ps, s.healthy = false := by
  unfold firstHealthy
  rw [List.find?_eq_none]
  constructor
  · intro h s hs
    obtain ⟨⟨j, hjlt⟩, hget⟩ := List.mem_iff_get.mp hs
    have hmem := scan_covers ps c (by omega) j hjlt
    have h2 := h j hmem
    rw [getD_eq_get hjlt, hget] at h2
    simpa using h2
  · intro h i _
    by_cases hi : i < ps.length
    · rw [getD_eq_get hi]
      have h2 := h _ (List.get_mem ps i hi)
      simpa using h2
    · rw [getD_default_of_le (by omega)]
      decide

theorem rrLoop_healthy_head (ps : List Server) (init cur : ℤ) (f : ℕ)
    (hh : (ps.getD ((cur + 1).tmod ps.length).toNat default).healthy = true) :
    rrLoop ps init cur (f + 1)
      = (some ((cur + 1).tmod ps.length).toNat, (cur + 1).tmod ps.length) := by
  simp only [rrLoop, hh, if_true]

theorem rrNextServer_all_healthy (ps : List Server)
    (hh : ∀ s ∈ ps, s.healthy = true) (c : ℤ) (h0 : 0 ≤ c + 1)
    (hlt : c + 1 < (ps.length : ℤ)) :
    rrNextServer ps c = (some (c + 1).toNat, c + 1) := by
  have hn : 0 < ps.length := by omega
  obtain ⟨f, hf⟩ : ∃ f, ps.length = f + 1 := ⟨ps.length - 1, by omega⟩
  have he : (c + 1).tmod (ps.length : ℤ) = c + 1 := Int.tmod_eq_of_lt h0 hlt
  have htn : (c + 1).toNat < ps.length := by omega
  have hgd : (ps.getD ((c + 1).tmod ps.length).toNat default).healthy = true := by
    rw [he, getD_eq_get htn]
    exact hh _ (List.get_mem ps _ htn)
  unfold rrNextServer
  rw [if_neg (by omega)]
  rw [hf, rrLoop_healthy_head ps c c f hgd, he]

theorem rrPicks_all_healthy (ps : List Server)
    (hh : ∀ s ∈ ps, s.healthy = true) : ∀ (k : ℕ) (c : ℤ), 0 ≤ c + 1 →
    c + (k : ℤ) < (ps.length : ℤ) →
    rrPicks ps c k = (List.range' (c + 1).toNat k).map some := by
  intro k
  induction k with
  | zero =>
    intro c _ _
    rfl
  | succ k ih =>
    intro c h0 hk
    have hlt : c + 1 < (ps.length : ℤ) := by push_cast at hk; omega
    simp only [rrPicks]
    rw [rrNextServer_all_healthy ps hh c h0 hlt]
    rw [ih (c + 1) (by omega) (by push_cast at hk ⊢; omega)]
    rw [List.range'_succ, List.map_cons]
    have h1 : (c + 1).toNat + 1 = (c + 1 + 1).toNat := by omega
    rw [h1]

/-- C4: from any reachable cursor over a nonempty pool, round-robin
advances the cursor modulo the pool size and returns the first healthy
backend of the forward scan of at most pool-size positions, leaving the
cursor at its index, and returns none exactly when the full rotation
finds no healthy backend; over an all-healthy pool of N backends, N
consecutive picks starting from the initial cursor return the backends
in pool order, each exactly once. -/
theorem c4_roundRobin_scan (ps : List Server) :
    (∀ c : ℤ, -1 ≤ c → c < (ps.length : ℤ) → ps ≠ [] →
      rrNextServer ps c =
        match firstHealthy ps c with
        | some i => (some i, (i : ℤ))
        | none => (none, (c + (ps.length : ℤ)).tmod ps.length)) ∧
    (∀ c : ℤ, -1 ≤ c →
      (firstHealthy ps c = none ↔ ∀ s ∈ ps, s.healthy = false)) ∧
    ((∀ s ∈ ps, s.healthy = true) →
      rrPicks ps (-1) ps.length = (List.range ps.length).map some) := by
  refine ⟨?_, ?_, ?_⟩
  · intro c hc hlt hne
    have hn : 0 < ps.length := List.length_pos.mpr hne
    have hbrk : ∀ k : ℕ, k + 1 < ps.length →
        (c + 1 + (k : ℤ)).tmod ps.length ≠ c := by
      intro k hk
      exact rr_no_revisit (ps.length : ℤ) (by exact_mod_cast hn) c hc hlt k
        (by push_cast; omega)
    unfold rrNextServer
    rw [if_neg (by omega), rrLoop_spec ps c ps.length c hn (by omega) hbrk]
    unfold firstHealthy
    cases hfind : (scanPositions ps.length c ps.length).find?
        (fun i => (ps.getD i default).healthy) with
    | some i => rfl
    | none =>
      simp only []
      rw [if_neg (by omega)]
  · intro c hc
    exact firstHealthy_none_iff ps c hc
  · intro hh
    have h := rrPicks_all_healthy ps hh ps.length (-1) (by omega)
      (by push_cast; omega)
    rw [h, List.range_eq_range']
    norm_num

/-- Witness for C4: a pool with an unhealthy head picks the healthy
backend at index 1 from cursor 0, and three consecutive picks over an
all-healthy pool of three return indices 0, 1, 2. -/
theorem c4_roundRobin_scan_witness :
    ((-1 : ℤ) ≤ 0 ∧ (0 : ℤ) < (([⟨false, 0⟩, ⟨true, 1⟩] : List Server).length : ℤ) ∧
      ([⟨false, 0⟩, ⟨true, 1⟩] : List Server) ≠ [] ∧
      ∀ s ∈ ([⟨true, 0⟩, ⟨true, 0⟩, ⟨true, 0⟩] : List Server), s.healthy = true) ∧
    (rrNextServer [⟨false, 0⟩, ⟨true, 1⟩] 0 =
      match firstHealthy [⟨false, 0⟩, ⟨true, 1⟩] 0 with
      | some i => (some i, (i : ℤ))
      | none => (none, ((0 : ℤ) + (([⟨false, 0⟩, ⟨true, 1⟩] : List Server).length : ℤ)).tmod
          ([⟨false, 0⟩, ⟨true, 1⟩] : List Server).length)) ∧
    rrPicks [⟨true, 0⟩, ⟨true, 0⟩, ⟨true, 0⟩] (-1)
        ([⟨true, 0⟩, ⟨true, 0⟩, ⟨true, 0⟩] : List Server).length
      = (List.range ([⟨true, 0⟩, ⟨true, 0⟩, ⟨true, 0⟩] : List Server).length).map some :=
  ⟨⟨by decide, by decide, by decide, by decide⟩,
    (c4_roundRobin_scan [⟨false, 0⟩, ⟨true, 1⟩]).1 0 (by decide) (by decide)
      (by decide),
    (c4_roundRobin_scan [⟨true, 0⟩, ⟨true, 0⟩, ⟨true, 0⟩]).2.2 (by decide)⟩

end LoadBalancer
